import Mathlib

/-!
Verification of the pseudocode pack tool (`manim-tools-pseudocode.py`).

The development shallowly embeds the program's core: the marker rule and
block segmenter (`pseudocode_rule.deal_with`), the pack codec
(`generate_pack_encoded` / `pack_decode_from`), and the pack object
(`pseudocode_pack_base.__init__`, `_try_warning`, the accessors).
Python strings are Lean `String`s, Python lists are Lean `List`s,
fallible code returns `Except PyErr`.
-/

namespace PseudocodePack

/-- Python exception outcomes that the embedded code can raise. -/
inductive PyErr where
  /-- Model of `IndexError`: raised by `pseudocode_sourcelines[head]` when the
  declaration-line scan runs past the end of the list; this realizes the
  spec's `MarkerNotFound` condition. -/
  | indexError
  /-- Model of `ValueError: min() arg is an empty sequence`, from `min(indents)`. -/
  | valueErrorMinEmpty
  /-- Model of `ValueError`: raised by `bytes.fromhex` on a malformed hex string. -/
  | valueErrorHex
  /-- Model of `zlib.error`: raised by `zlib.decompress` on corrupt data. -/
  | zlibError
  /-- Model of `UnicodeDecodeError`: raised by `bytes.decode` on invalid text. -/
  | unicodeDecodeError
  /-- Model of `json.JSONDecodeError`: raised by `json.loads` on invalid JSON. -/
  | jsonDecodeError
  /-- Model of `TypeError`: e.g. an unhashable dict key. -/
  | typeError
  /-- Model of `AttributeError`: a failed attribute lookup, e.g.
  `self.__qualname__` on an instance that has no such attribute. -/
  | attributeError
  /-- Model of `RecursionError`: Python's stack-overflow guard on unbounded recursion. -/
  | recursionError
deriving DecidableEq, Repr

/-! ### Python string primitives

ASCII model of Python's whitespace set (`str.isspace` / `str.strip` /
the regex class `\s`): space, tab, newline, carriage return, vertical
tab, form feed. -/

/-- A Python whitespace character (ASCII fragment of `\s` / `str.isspace`). -/
def isPySpace (c : Char) : Bool :=
  c = ' ' || c = '\t' || c = '\n' || c = '\r' || c = Char.ofNat 11 || c = Char.ofNat 12

/-- Model of `str.lstrip()` on a character list. -/
def lstripL (l : List Char) : List Char := l.dropWhile isPySpace

/-- Model of `str.rstrip()` on a character list. -/
def rstripL (l : List Char) : List Char := (l.reverse.dropWhile isPySpace).reverse

/-- Model of `str.strip()` on a character list. -/
def stripL (l : List Char) : List Char := rstripL (lstripL l)

/-- Model of `line.rstrip()`. -/
def pyRstrip (s : String) : String := ⟨rstripL s.toList⟩

/-- Model of `line.isspace()`: true iff the string is nonempty and every character is
whitespace.  In particular `"".isspace()` is `False` in Python. -/
def pyIsspace (s : String) : Bool := !s.toList.isEmpty && s.toList.all isPySpace

/-- Model of `a.isPrefixOf b` with definitional equations convenient for proofs. -/
def startsWithL : List Char → List Char → Bool
  | [], _ => true
  | _ :: _, [] => false
  | a :: as, b :: bs => a = b && startsWithL as bs

/-- Model of `line.find(sub)` restricted to the case where `sub` occurs in `line`
(the program only calls `find` through `line.find(line.lstrip())`, where
the stripped string always occurs): index of the first occurrence of
`sub`; like Python's `"".find("")`, the empty input yields `0`. -/
def findSub : List Char → List Char → Nat
  | [], _ => 0
  | c :: cs, sub => if startsWithL sub (c :: cs) then 0 else 1 + findSub cs sub

/-- Model of `line.find(line.lstrip())` — the indentation width recorded for a body
line (source line 125). -/
def line_indent (s : String) : Nat := findSub s.toList (lstripL s.toList)

/-- Model of `line[n:]` — Python slicing from a nonnegative index. -/
def strDrop (s : String) (n : Nat) : String := ⟨s.toList.drop n⟩

/-! ### The marker rule

`pattern` (source lines 48-52) yields, after the `%` substitutions:
  * `start_marker_code` = `\s*def\s*{func_name}\(.*\):`, full-line match,
    clipped through pattern `\(.*\):` with slice `[1:-2]`;
  * `marker_code` = `\s*###\s*.*\s*`, full-line match, clipped through
    pattern `###\s*.*\s*` with slice `[3:]`.
The matchers below are the deterministic readings of those regexes: the
whitespace runs are maximal-munch, which agrees with backtracking
semantics because each piece following a `\s*` starts with a
non-whitespace character, and `.` never matches a newline. -/

/-- Decomposition `mid ++ "):"` of the tail of a declaration line, with
`.` unable to cross a newline: the list ends in `):` and everything
before that contains no `'\n'`. -/
def endsParenColon (l : List Char) : Bool :=
  decide (2 ≤ l.length) && decide (l.drop (l.length - 2) = [')', ':'])
    && (l.take (l.length - 2)).all (· ≠ '\n')

/-- Full-line match of `\s*def\s*{func_name}\(.*\):` (the compiled
`start_marker_code`, source lines 102-103). -/
def startMatchL (func_name : List Char) (l : List Char) : Bool :=
  let r1 := l.dropWhile isPySpace
  startsWithL ['d', 'e', 'f'] r1 &&
    (let r2 := (r1.drop 3).dropWhile isPySpace
     startsWithL func_name r2 &&
       (match r2.drop func_name.length with
        | '(' :: rest => endsParenColon rest
        | _ => false))

/-- Full-line match of `\s*###\s*.*\s*` (the compiled `marker_code`):
leading whitespace, the literal `###`, then any remainder whose
whitespace-trimmed core contains no newline. -/
def markerMatchL (l : List Char) : Bool :=
  let r := l.dropWhile isPySpace
  startsWithL ['#', '#', '#'] r && (stripL (r.drop 3)).all (· ≠ '\n')

/-- Model of `clip_pattern("start_marker", line)` on a line that fully matched the
anchor: `re.search(r"\(.*\):", line)` starts the match at the first `'('`
and, the line ending in `"):"` with no newline, extends it greedily to
the end of the line; the slice `[1:-2]` then removes the `'('` and the
final `"):"`, and the result is stripped. -/
def clip_start_marker (l : List Char) : String :=
  let t := (l.dropWhile (· ≠ '(')).drop 1
  ⟨stripL (t.take (t.length - 2))⟩

/-- Drop characters until the remaining list starts with `###`. -/
def dropToHash : List Char → List Char
  | [] => []
  | c :: cs => if startsWithL ['#', '#', '#'] (c :: cs) then c :: cs else dropToHash cs

/-- Model of `clip_pattern("marker", line)` on a marker line:
`re.search(r"###\s*.*\s*", line)` matches from the first `###` to the end
of the line; the slice `[3:]` removes the `###` and the result is
stripped. -/
def clip_marker (l : List Char) : String :=
  ⟨stripL ((dropToHash l).drop 3)⟩

/-! ### The block segmenter (`pseudocode_rule.deal_with`, source lines 85-133) -/

/-- A block: a label paired with its body lines. -/
abbrev Block := String × List String

/-- A pack: the ordered block list. -/
abbrev Pack := List Block

/-- Source lines 97-100: keep the lines that are not entirely whitespace
and strip trailing whitespace from each kept line. -/
def clean_lines (src : List String) : List String :=
  (src.filter (fun l => !pyIsspace l)).map pyRstrip

/-- The `while ... head += 1` scan of source lines 104-107: find the first
line fully matching the anchor, returning it together with the lines
after it; running past the end of the list raises `IndexError`. -/
def scan_head (p : String → Bool) : List String → Except PyErr (String × List String)
  | [] => .error .indexError
  | l :: ls => if p l then .ok (l, ls) else scan_head p ls

/-- Model of `pack[-1][-1].append(line)`: append a body line to the last block. -/
def appendLast : Pack → String → Pack
  | [], _ => []
  | [(lbl, body)], line => [(lbl, body ++ [line])]
  | b :: bs, line => b :: appendLast bs line

/-- One iteration of the `for` loop of source lines 117-126: a marker line
opens a fresh block; any other line is appended to the current block and
its indentation width is recorded. -/
def pack_step (st : Pack × List Nat) (line : String) : Pack × List Nat :=
  if markerMatchL line.toList then
    (st.1 ++ [(clip_marker line.toList, [])], st.2)
  else
    (appendLast st.1 line, st.2 ++ [line_indent line])

/-- Model of `min(indents)` for a nonempty list presented as head and tail. -/
def list_min (a : Nat) (l : List Nat) : Nat := l.foldl Nat.min a

/-- Source lines 128-131: `least_indent = min(indents)` (raising
`ValueError` on an empty sequence) and the per-line slice
`line[least_indent:]` applied to every body line of every block. -/
def normalize_pack (pack : Pack) (indents : List Nat) : Except PyErr Pack :=
  match indents with
  | [] => .error .valueErrorMinEmpty
  | i :: is =>
    let least := list_min i is
    .ok (pack.map (fun b => (b.1, b.2.map (fun line => strDrop line least))))

/-- Model of `pseudocode_rule.deal_with` (source lines 85-133). -/
def deal_with (pseudocode_sourcelines : List String) (func_name : String) :
    Except PyErr Pack :=
  let lines := clean_lines pseudocode_sourcelines
  match scan_head (fun l => startMatchL func_name.toList l.toList) lines with
  | .error e => .error e
  | .ok (def_str, rest) =>
    let start_marker := clip_start_marker def_str.toList
    match rest.foldl pack_step ([(start_marker, [])], []) with
    | (pack, indents) => normalize_pack pack indents

/-- All body lines of a pack, in block order. -/
def body_lines (pack : Pack) : List String := (pack.map Prod.snd).flatten

/-- Re-application of the normalization step of source lines 125-131 to a
block list: record `line.find(line.lstrip())` for every body line, take
the minimum, and slice that many leading characters from every body
line. -/
def renormalize (pack : Pack) : Except PyErr Pack :=
  normalize_pack pack ((body_lines pack).map line_indent)

/-! ### JSON values

`json.dumps` / `json.loads` operate on Python objects; the values that
can flow through this program's codec are strings and (nested) lists of
them, so the embedded JSON type covers exactly that fragment: strings
and arrays.  The decoder below is `json.loads` restricted to this
fragment — every text the program's encoder can produce lies in it. -/

/-- A JSON value of the string/array fragment. -/
inductive Json where
  | str : String → Json
  | arr : List Json → Json
deriving Repr

mutual
/-- Size of a JSON value, used as parser fuel. -/
def jsize : Json → Nat
  | .str _ => 1
  | .arr xs => 1 + jsizeL xs
/-- Total size of a list of JSON values. -/
def jsizeL : List Json → Nat
  | [] => 0
  | x :: xs => jsize x + jsizeL xs
end

/-- Lowercase hexadecimal digit, as emitted by `json.dumps` (`\u%04x`)
and `bytes.hex`. -/
def hexDigitChar (n : Nat) : Char :=
  Char.ofNat (if n < 10 then 48 + n else 87 + n)

/-- Four lowercase hex digits of a code unit below `0x10000`. -/
def hex4 (n : Nat) : List Char :=
  [hexDigitChar (n / 4096 % 16), hexDigitChar (n / 256 % 16),
   hexDigitChar (n / 16 % 16), hexDigitChar (n % 16)]

/-- Model of `json.dumps` escaping of one character with the default
`ensure_ascii=True`: `"` and `\` and the five short control escapes, all
other printable ASCII literal, everything else as `\uXXXX`, with
surrogate pairs for astral characters. -/
def escapeChar (c : Char) : List Char :=
  if c = '"' then ['\\', '"']
  else if c = '\\' then ['\\', '\\']
  else if c = Char.ofNat 8 then ['\\', 'b']
  else if c = '\t' then ['\\', 't']
  else if c = '\n' then ['\\', 'n']
  else if c = Char.ofNat 12 then ['\\', 'f']
  else if c = Char.ofNat 13 then ['\\', 'r']
  else if 32 ≤ c.toNat ∧ c.toNat < 127 then [c]
  else if c.toNat < 65536 then '\\' :: 'u' :: hex4 c.toNat
  else
    ('\\' :: 'u' :: hex4 (55296 + (c.toNat - 65536) / 1024)) ++
      ('\\' :: 'u' :: hex4 (56320 + (c.toNat - 65536) % 1024))

/-- Model of `json.dumps` rendering of a string body (without the quotes). -/
def escapeString (s : String) : List Char := (s.toList.map escapeChar).flatten

mutual
/-- Model of `json.dumps(value, separators=(',', ':'))`: compact rendering with no
whitespace (source lines 154-155 pass exactly these separators). -/
def dumpsJson : Json → List Char
  | .str s => '"' :: escapeString s ++ ['"']
  | .arr xs => '[' :: dumpsArr xs ++ [']']
/-- Comma-separated rendering of array elements. -/
def dumpsArr : List Json → List Char
  | [] => []
  | [x] => dumpsJson x
  | x :: y :: xs => dumpsJson x ++ ',' :: dumpsArr (y :: xs)
end

/-- Model of `json.dumps` as a string. -/
def dumps (j : Json) : String := ⟨dumpsJson j⟩

/-- The rendering of the elements of an array after its first element:
a comma before each further element. -/
def dumpsArrSep (js : List Json) : List Char :=
  (js.map (fun x => ',' :: dumpsJson x)).flatten

/-- Value of one hex digit (`json` and `bytes.fromhex` both accept either
case). -/
def hexVal (c : Char) : Option Nat :=
  if 48 ≤ c.toNat ∧ c.toNat ≤ 57 then some (c.toNat - 48)
  else if 97 ≤ c.toNat ∧ c.toNat ≤ 102 then some (c.toNat - 87)
  else if 65 ≤ c.toNat ∧ c.toNat ≤ 70 then some (c.toNat - 55)
  else none

/-- The single-character JSON string escapes accepted by `json.loads`. -/
def unescape : Char → Option Char
  | '"' => some '"'
  | '\\' => some '\\'
  | '/' => some '/'
  | 'b' => some (Char.ofNat 8)
  | 'f' => some (Char.ofNat 12)
  | 'n' => some '\n'
  | 'r' => some '\r'
  | 't' => some '\t'
  | _ => none

/-- Decode `\uXXXX\uXXXX` after a high surrogate `n`: a low surrogate
must follow, and the pair is combined into one astral character. -/
def parseLowSurrogate (n : Nat) : List Char → Option (Option Char × List Char)
  | '\\' :: 'u' :: a :: b :: c :: d :: rest => do
    let wa ← hexVal a
    let wb ← hexVal b
    let wc ← hexVal c
    let wd ← hexVal d
    let m := ((wa * 16 + wb) * 16 + wc) * 16 + wd
    if 56320 ≤ m ∧ m < 57344 then
      some (some (Char.ofNat (65536 + (n - 55296) * 1024 + (m - 56320))), rest)
    else none
  | _ => none

/-- Decode the four hex digits of a `\u` escape.  A high surrogate must
be followed by a low surrogate and the pair is combined; a lone
surrogate cannot inhabit a Lean `Char` and is rejected (the encoder
never emits one). -/
def parseU : List Char → Option (Option Char × List Char)
  | a :: b :: c :: d :: rest => do
    let va ← hexVal a
    let vb ← hexVal b
    let vc ← hexVal c
    let vd ← hexVal d
    let n := ((va * 16 + vb) * 16 + vc) * 16 + vd
    if 55296 ≤ n ∧ n < 56320 then parseLowSurrogate n rest
    else if 56320 ≤ n ∧ n < 57344 then none
    else some (some (Char.ofNat n), rest)
  | _ => none

/-- Decode one backslash escape of a JSON string. -/
def parseEscape : List Char → Option (Option Char × List Char)
  | [] => none
  | e :: rest =>
    if e = 'u' then parseU rest
    else
      match unescape e with
      | some c => some (some c, rest)
      | none => none

/-- One step of the strict-mode `json` string scanner, after the opening
quote: `none` marks invalid input; `some (none, rest)` the closing
quote; `some (some c, rest)` one decoded content character.  Raw control
characters are rejected. -/
def parseStrStep : List Char → Option (Option Char × List Char)
  | [] => none
  | c :: rest =>
    if c = '"' then some (none, rest)
    else if c = '\\' then parseEscape rest
    else if c.toNat < 32 then none
    else some (some c, rest)

/-- Parse a JSON string body after the opening quote, returning the
content and the input after the closing quote.  The fuel only bounds the
number of scanner steps; every step consumes at least one character, so
`length + 1` fuel is always sufficient. -/
def parseStrBody : Nat → List Char → Option (List Char × List Char)
  | 0, _ => none
  | f + 1, l =>
    match parseStrStep l with
    | none => none
    | some (none, rest) => some ([], rest)
    | some (some c, rest) =>
      match parseStrBody f rest with
      | none => none
      | some (cs, r) => some (c :: cs, r)

mutual
/-- Fuel-driven parser for one JSON value of the fragment. -/
def parseJson : Nat → List Char → Option (Json × List Char)
  | 0, _ => none
  | _ + 1, '"' :: rest =>
    (parseStrBody (rest.length + 1) rest).map (fun p => (Json.str ⟨p.1⟩, p.2))
  | f + 1, '[' :: rest =>
    match rest with
    | ']' :: r => some (.arr [], r)
    | _ => do
      let (j, r1) ← parseJson f rest
      let (js, r2) ← parseElems f r1
      some (.arr (j :: js), r2)
  | _ + 1, _ => none
/-- After one array element: either the closing bracket or a comma and
further elements. -/
def parseElems : Nat → List Char → Option (List Json × List Char)
  | 0, _ => none
  | _ + 1, ']' :: rest => some ([], rest)
  | f + 1, ',' :: rest => do
    let (j, r1) ← parseJson f rest
    let (js, r2) ← parseElems f r1
    some (j :: js, r2)
  | _ + 1, _ => none
end

/-- Model of `json.loads`, restricted to the grammar the program's
`json.dumps(..., separators=(',', ':'))` can emit: strings and arrays,
with no whitespace between tokens; one value spanning the whole input.
The fuel `length + 1` dominates the nesting depth, since every recursion
step consumes at least the opening bracket. -/
def loads (s : String) : Option Json :=
  match parseJson (s.toList.length + 1) s.toList with
  | some (j, []) => some j
  | _ => none

/-- The Python object a pack is: the ordered list of
`[label, list-of-lines]` pairs. -/
def jsonOfPack (pack : Pack) : Json :=
  .arr (pack.map (fun b => .arr [.str b.1, .arr (b.2.map Json.str)]))

/-- Read a JSON value back as a string, if it is one. -/
def strOfJson : Json → Option String
  | .str s => some s
  | _ => none

/-- Read a JSON value back as a block, if it has the expected
`[label-string, list-of-line-strings]` shape. -/
def blockOfJson : Json → Option Block
  | .arr [.str lbl, .arr ls] => (ls.mapM strOfJson).map (fun lines => (lbl, lines))
  | _ => none

/-- Read a JSON value back as a pack, if it has the expected shape of an
ordered list of `[label-string, list-of-line-strings]` pairs. -/
def packOfJson : Json → Option Pack
  | .arr xs => xs.mapM blockOfJson
  | _ => none

/-! ### Bytes: UTF-8, compression, hex

Bytes are `Nat`s below 256.  `str.encode("utf-8")` / `bytes.decode` are
embedded in full; `zlib.compress` / `zlib.decompress` are embedded as an
executable lossless byte codec (a run-length code), standing in for
DEFLATE: the program relies on no property of zlib other than
losslessness (`decompress(compress(b)) == b`) and determinism, and both
hold of the model; `bytes.hex()` / `bytes.fromhex` are embedded in
full (modulo `fromhex`'s tolerance for spaces between pairs, which never
occur in the program's artifacts). -/

/-- UTF-8 encoding of one character (1-4 bytes). -/
def utf8Char (c : Char) : List Nat :=
  if c.toNat < 128 then [c.toNat]
  else if c.toNat < 2048 then [192 + c.toNat / 64, 128 + c.toNat % 64]
  else if c.toNat < 65536 then
    [224 + c.toNat / 4096, 128 + c.toNat / 64 % 64, 128 + c.toNat % 64]
  else
    [240 + c.toNat / 262144, 128 + c.toNat / 4096 % 64, 128 + c.toNat / 64 % 64,
     128 + c.toNat % 64]

/-- Model of `str.encode("utf-8")`. -/
def utf8Encode (l : List Char) : List Nat := (l.map utf8Char).flatten

/-- Is `n` a valid scalar value (not a surrogate, below `0x110000`)? -/
def validScalar (n : Nat) : Bool :=
  decide (n < 55296) || (decide (57343 < n) && decide (n < 1114112))

/-- A UTF-8 continuation byte, and its 6-bit payload. -/
def contByte (b : Nat) : Option Nat :=
  if 128 ≤ b ∧ b < 192 then some (b - 128) else none

/-- Continuation of strict UTF-8 decoding for a multi-byte lead byte
`b`, rejecting overlong encodings, surrogates and out-of-range values. -/
def utf8StepMulti (b : Nat) (rest : List Nat) : Option (Char × List Nat) :=
  if 192 ≤ b ∧ b < 224 then
    match rest with
    | b2 :: rest2 => do
      let p2 ← contByte b2
      let n := (b - 192) * 64 + p2
      if 128 ≤ n then some (Char.ofNat n, rest2) else none
    | _ => none
  else if 224 ≤ b ∧ b < 240 then
    match rest with
    | b2 :: b3 :: rest2 => do
      let p2 ← contByte b2
      let p3 ← contByte b3
      let n := (b - 224) * 4096 + p2 * 64 + p3
      if 2048 ≤ n ∧ validScalar n then some (Char.ofNat n, rest2) else none
    | _ => none
  else if 240 ≤ b ∧ b < 248 then
    match rest with
    | b2 :: b3 :: b4 :: rest2 => do
      let p2 ← contByte b2
      let p3 ← contByte b3
      let p4 ← contByte b4
      let n := (b - 240) * 262144 + p2 * 4096 + p3 * 64 + p4
      if 65536 ≤ n ∧ n < 1114112 then some (Char.ofNat n, rest2) else none
    | _ => none
  else none

/-- One step of strict UTF-8 decoding: one scalar value and the
remaining bytes. -/
def utf8Step : List Nat → Option (Char × List Nat)
  | [] => none
  | b :: rest =>
    if b < 128 then some (Char.ofNat b, rest) else utf8StepMulti b rest

/-- Fuel-driven strict UTF-8 decoding loop; every step consumes at least
one byte, so `length + 1` fuel is always sufficient. -/
def utf8DecodeAux : List Nat → Nat → Option (List Char)
  | [], _ => some []
  | _ :: _, 0 => none
  | x :: xs, f + 1 =>
    match utf8Step (x :: xs) with
    | none => none
    | some (c, rest) =>
      match utf8DecodeAux rest f with
      | none => none
      | some cs => some (c :: cs)

/-- Model of `bytes.decode("utf-8")`: strict UTF-8 decoding. -/
def utf8Decode (l : List Nat) : Option (List Char) := utf8DecodeAux l (l.length + 1)

/-- Run-length compression body: `n` (between 1 and 255) copies of the
byte `b` are pending; emit `[n, b]` pairs. -/
def rleFrom (n : Nat) (b : Nat) : List Nat → List Nat
  | [] => [n, b]
  | c :: cs => if c = b ∧ n < 255 then rleFrom (n + 1) b cs else n :: b :: rleFrom 1 c cs

/-- Model of `zlib.compress`, modelled as a run-length code (see the section
comment): the output is a sequence of `[count, byte]` pairs with
`1 ≤ count ≤ 255`. -/
def compress : List Nat → List Nat
  | [] => []
  | b :: bs => rleFrom 1 b bs

/-- Model of `zlib.decompress` for the model codec: reads `[count, byte]` pairs
and rejects any malformed stream. -/
def decompress : List Nat → Option (List Nat)
  | [] => some []
  | [_] => none
  | n :: b :: rest =>
    if 1 ≤ n ∧ n ≤ 255 ∧ b < 256 then do
      let bs ← decompress rest
      some (List.replicate n b ++ bs)
    else none

/-- Model of `bytes.hex()`: two lowercase digits per byte. -/
def bytesToHex (bs : List Nat) : List Char :=
  (bs.map (fun b => [hexDigitChar (b / 16), hexDigitChar (b % 16)])).flatten

/-- Model of `bytes.fromhex`: pairs of hex digits; odd length or a non-hex
character raises `ValueError` (modelled as `none`). -/
def bytesFromHex : List Char → Option (List Nat)
  | [] => some []
  | [_] => none
  | a :: b :: rest => do
    let x ← hexVal a
    let y ← hexVal b
    let bs ← bytesFromHex rest
    some ((16 * x + y) :: bs)

/-! ### The pack codec (source lines 135-174) -/

/-- Source lines 154-157 applied to an arbitrary Python value `j`:
`zlib.compress(json.dumps(j, separators=(',', ':')).encode("utf-8")).hex()`. -/
def json_encode (j : Json) : String :=
  ⟨bytesToHex (compress (utf8Encode (dumpsJson j)))⟩

/-- Source lines 154-157 applied to a pack: the `EncodedPack` string of
`pseudocode_sourcepack`. -/
def encode_pack (pack : Pack) : String := json_encode (jsonOfPack pack)

/-- Model of `generate_pack_encoded` (source lines 135-157): segment the source
lines, then encode the resulting pack. -/
def generate_pack_encoded (pseudocode_sourcelines : List String)
    (func_name : String) : Except PyErr String :=
  (deal_with pseudocode_sourcelines func_name).map encode_pack

/-- Model of `pack_decode_from` (source lines 159-174):
`json.loads(zlib.decompress(bytes.fromhex(s)).decode("utf-8"))`, each
stage raising its own exception on failure.  Note that the decoded JSON
value is returned as is — no validation of its shape is performed. -/
def pack_decode_from (pseudocode_pack_encoded : String) : Except PyErr Json :=
  match bytesFromHex pseudocode_pack_encoded.toList with
  | none => .error .valueErrorHex
  | some bs =>
    match decompress bs with
    | none => .error .zlibError
    | some ds =>
      match utf8Decode ds with
      | none => .error .unicodeDecodeError
      | some cs =>
        match loads ⟨cs⟩ with
        | none => .error .jsonDecodeError
        | some j => .ok j

/-! ### The pack object (`pseudocode_pack_base`, source lines 176-240)

The instance is a record of the attributes `__init__` stores; each
method is a function on the record which, mirroring the deferred
`warnings.warn` channel, additionally returns the list of warning
messages it emits during the call. -/

/-- The metadata of `WRAPPER_ASSIGNMENTS` that `__init__` copies from a
supplied function onto the instance (source lines 200-203). -/
structure FuncMeta where
  module : String
  name : String
  qualname : String
  doc : Option String
deriving DecidableEq, Repr

/-- The attributes of a `pseudocode_pack_base` instance. -/
structure PackState where
  /-- Model of `self._origin_pack_encoded`. -/
  origin_pack_encoded_attr : String
  /-- Model of `self._warning_update`. -/
  warning_update : Bool
  /-- Model of `self.encoding`. -/
  encoding : String
  /-- Model of `self._source_pack` — whatever JSON value the decode returned. -/
  source_pack : Json
  /-- Model of `self._dict_index` — insertion-ordered key/value pairs. -/
  dict_index : List (Json × Json)
  /-- The wrapper attributes copied from `func`, when one was supplied. -/
  wrapper_attrs : Option FuncMeta
  /-- Model of `self._warning_update_info`, once cached. -/
  warning_update_info : Option String

/-- Python `obj[i]` for a decoded JSON value: list indexing, or string
indexing (yielding a one-character string); out of range raises
`IndexError`. -/
def json_getitem (j : Json) (i : Nat) : Except PyErr Json :=
  match j with
  | .arr xs =>
    match xs.get? i with
    | some x => .ok x
    | none => .error .indexError
  | .str s =>
    match s.toList.get? i with
    | some c => .ok (.str ⟨[c]⟩)
    | none => .error .indexError

/-- Python `for block in obj` for a decoded JSON value: lists iterate
over their elements, strings over their one-character substrings. -/
def json_iter (j : Json) : List Json :=
  match j with
  | .arr xs => xs
  | .str s => s.toList.map (fun c => .str ⟨[c]⟩)

/-- One entry of the `_dict_index` comprehension (source lines 196-198):
`block[0]: block[1]`, where a list used as a dict key is unhashable. -/
def dict_index_entry (block : Json) : Except PyErr (Json × Json) := do
  let k ← json_getitem block 0
  let v ← json_getitem block 1
  match k with
  | .arr _ => .error .typeError
  | _ => .ok (k, v)

/-- The staleness message built by `_try_warning` (source lines 223-227):
`'"{func_name}" need to be updated with: \n{head}"{origin}"{tail}'` with
`head = "="*8 + "\n"` and `tail = "\n" + "="*8`. -/
def warning_message (func_name origin_pack_encoded : String) : String :=
  "\"" ++ func_name ++ "\" need to be updated with: \n" ++ "========\n" ++
    "\"" ++ origin_pack_encoded ++ "\"" ++ "\n========"

/-- Model of `_try_warning` (source lines 219-230): when `_warning_update`
is set and no message is cached yet, the message is built from
`self.__qualname__`.  That lookup finds the value copied from `func` when
one was supplied (the `setattr` loop in `__init__`); with no wrapper
attributes copied (`func` was `None`) the instance has no `__qualname__`
attribute — CPython removes `__qualname__` from the class namespace at
class creation and serves it through a descriptor on the metaclass
`type`, which instance attribute lookup never consults — so the lookup
raises `AttributeError` before `warnings.warn` runs.  Otherwise the
message is cached and emitted.  The returned list holds the messages the
call emits. -/
def try_warning (st : PackState) : Except PyErr (PackState × List String) :=
  if st.warning_update then
    match st.warning_update_info with
    | some i => .ok (st, [i])
    | none =>
      match st.wrapper_attrs with
      | none => .error .attributeError
      | some f =>
        let info := warning_message f.qualname st.origin_pack_encoded_attr
        .ok ({ st with warning_update_info := some info }, [info])
  else .ok (st, [])

/-- Model of `__init__` (source lines 178-205): store the arguments, decode the
pack, build the label index, copy the wrapper attributes when a function
is supplied, and finally call `_try_warning`.  Returns the constructed
instance together with the warnings emitted during construction. -/
def pack_init (origin_pseudocode_pack_encoded : String)
    (warning_update : Bool) (func : Option FuncMeta) :
    Except PyErr (PackState × List String) :=
  match pack_decode_from origin_pseudocode_pack_encoded with
  | .error e => .error e
  | .ok source_pack =>
    match (json_iter source_pack).mapM dict_index_entry with
    | .error e => .error e
    | .ok dict =>
      let st : PackState :=
        { origin_pack_encoded_attr := origin_pseudocode_pack_encoded
          warning_update := warning_update
          encoding := "utf-8"
          source_pack := source_pack
          dict_index := dict
          wrapper_attrs := func
          warning_update_info := none }
      try_warning st

/-- The accessor `origin_pack_sourcepack` (source lines 237-240): a plain
attribute read; its body contains no `warn` call, so it emits nothing. -/
def origin_pack_sourcepack (st : PackState) : Json × List String :=
  (st.source_pack, [])

/-- The accessor `__call__` with `return_line=False` (source lines
210-217): iterate the blocks of `_source_pack`; no `warn` call, so it
emits nothing. -/
def call_blocks (st : PackState) : List Json × List String :=
  (json_iter st.source_pack, [])

/-- The property `origin_pack_encoded` (source lines 232-235).  Its body
is `return self.origin_pack_encoded`: `origin_pack_encoded` is a data
descriptor on the class, so the attribute lookup re-enters the property
itself and the call never terminates; Python aborts it with
`RecursionError` when the interpreter's stack limit is reached.  The
embedding makes the recursion depth explicit as `gas`. -/
def origin_pack_encoded_prop (st : PackState) : Nat → Except PyErr String
  | 0 => .error .recursionError
  | gas + 1 => origin_pack_encoded_prop st gas

/-! ## Lemmas: byte-layer round trips -/

theorem hexVal_hexDigitChar {d : Nat} (h : d < 16) :
    hexVal (hexDigitChar d) = some d := by
  interval_cases d <;> rfl

theorem bytesFromHex_bytesToHex {bs : List Nat} (h : ∀ b ∈ bs, b < 256) :
    bytesFromHex (bytesToHex bs) = some bs := by
  induction bs with
  | nil => rfl
  | cons b bs ih =>
    have hb : b < 256 := h b (List.mem_cons_self ..)
    have hdiv : b / 16 < 16 := by omega
    have hmod : b % 16 < 16 := by omega
    have hrest : bytesFromHex (bytesToHex bs) = some bs :=
      ih (fun x hx => h x (List.mem_cons_of_mem _ hx))
    simp only [bytesToHex, List.map_cons, List.flatten_cons, List.cons_append,
      List.nil_append] at *
    simp only [bytesFromHex, hexVal_hexDigitChar hdiv, hexVal_hexDigitChar hmod,
      Option.bind_eq_bind, Option.some_bind, hrest]
    have : 16 * (b / 16) + b % 16 = b := by omega
    simp [this]

theorem decompress_rleFrom : ∀ (bs : List Nat) (n b : Nat), 1 ≤ n → n ≤ 255 →
    b < 256 → (∀ x ∈ bs, x < 256) →
    decompress (rleFrom n b bs) = some (List.replicate n b ++ bs)
  | [], n, b, h1, h2, h3, _ => by
    simp [rleFrom, decompress, h1, h2, h3]
  | c :: cs, n, b, h1, h2, h3, hm => by
    have hc : c < 256 := hm c (List.mem_cons_self ..)
    have hcs : ∀ x ∈ cs, x < 256 := fun x hx => hm x (List.mem_cons_of_mem _ hx)
    by_cases hcb : c = b ∧ n < 255
    · rw [rleFrom, if_pos hcb]
      rw [decompress_rleFrom cs (n + 1) b (by omega) (by omega) h3 hcs]
      rw [hcb.1, List.replicate_succ' (n := n)]
      simp
    · rw [rleFrom, if_neg hcb]
      rw [decompress, if_pos ⟨h1, h2, h3⟩,
        decompress_rleFrom cs 1 c (by omega) (by omega) hc hcs]
      simp

theorem decompress_compress {bs : List Nat} (h : ∀ x ∈ bs, x < 256) :
    decompress (compress bs) = some bs := by
  match bs with
  | [] => rfl
  | b :: rest =>
    have hb : b < 256 := h b (List.mem_cons_self ..)
    have hr : ∀ x ∈ rest, x < 256 := fun x hx => h x (List.mem_cons_of_mem _ hx)
    rw [compress, decompress_rleFrom rest 1 b (by omega) (by omega) hb hr]
    simp

theorem rleFrom_bytes : ∀ (bs : List Nat) (n b : Nat), n ≤ 255 → b < 256 →
    (∀ x ∈ bs, x < 256) → ∀ y ∈ rleFrom n b bs, y < 256
  | [], n, b, h2, h3, _ => by
    simp [rleFrom]; omega
  | c :: cs, n, b, h2, h3, hm => by
    have hc : c < 256 := hm c (List.mem_cons_self ..)
    have hcs : ∀ x ∈ cs, x < 256 := fun x hx => hm x (List.mem_cons_of_mem _ hx)
    by_cases hcb : c = b ∧ n < 255
    · rw [rleFrom, if_pos hcb]
      exact rleFrom_bytes cs (n + 1) b (by omega) h3 hcs
    · rw [rleFrom, if_neg hcb]
      intro y hy
      rcases hy with _ | ⟨_, hy⟩
      · omega
      · rcases hy with _ | ⟨_, hy⟩
        · omega
        · exact rleFrom_bytes cs 1 c (by omega) hc hcs y hy

theorem compress_bytes {bs : List Nat} (h : ∀ x ∈ bs, x < 256) :
    ∀ y ∈ compress bs, y < 256 := by
  match bs with
  | [] => simp [compress]
  | b :: rest =>
    exact rleFrom_bytes rest 1 b (by omega) (h b (List.mem_cons_self ..))
      (fun x hx => h x (List.mem_cons_of_mem _ hx))

theorem char_toNat_lt (c : Char) : c.toNat < 1114112 := by
  rcases c.valid with h | h
  · have : c.toNat < 55296 := h
    omega
  · exact h.2

theorem utf8Char_bytes (c : Char) : ∀ y ∈ utf8Char c, y < 256 := by
  have := char_toNat_lt c
  intro y hy
  unfold utf8Char at hy
  split_ifs at hy <;> simp at hy <;> omega

theorem utf8Encode_bytes (l : List Char) : ∀ y ∈ utf8Encode l, y < 256 := by
  intro y hy
  simp only [utf8Encode, List.mem_flatten, List.mem_map] at hy
  obtain ⟨_, ⟨c, _, rfl⟩, hy⟩ := hy
  exact utf8Char_bytes c y hy

theorem utf8Char_len (c : Char) : 1 ≤ (utf8Char c).length := by
  unfold utf8Char
  split_ifs <;> simp

theorem len_le_utf8Encode (l : List Char) : l.length ≤ (utf8Encode l).length := by
  induction l with
  | nil => simp [utf8Encode]
  | cons c cs ih =>
    have := utf8Char_len c
    simp only [utf8Encode, List.map_cons, List.flatten_cons, List.length_append,
      List.length_cons] at *
    omega

theorem utf8Step_ascii {b : Nat} (rest : List Nat) (hb : b < 128) :
    utf8Step (b :: rest) = some (Char.ofNat b, rest) := by
  rw [utf8Step, if_pos hb]

theorem utf8DecodeAux_ascii : ∀ (l : List Char) (f : Nat),
    (∀ c ∈ l, c.toNat < 128) → l.length ≤ f →
    utf8DecodeAux (utf8Encode l) f = some l
  | [], f, _, _ => by simp [utf8Encode, utf8DecodeAux]
  | c :: cs, f + 1, h, hf => by
    have hc : c.toNat < 128 := h c (List.mem_cons_self ..)
    have hcs := utf8DecodeAux_ascii cs f
      (fun x hx => h x (List.mem_cons_of_mem _ hx)) (by simpa using hf)
    have henc : utf8Encode (c :: cs) = c.toNat :: utf8Encode cs := by
      simp only [utf8Encode, List.map_cons, List.flatten_cons]
      rw [utf8Char, if_pos hc]
      rfl
    rw [henc, utf8DecodeAux, utf8Step_ascii _ hc]
    simp [hcs, Char.ofNat_toNat]
  | c :: cs, 0, _, hf => by simp at hf

theorem utf8Decode_utf8Encode_ascii {l : List Char}
    (h : ∀ c ∈ l, c.toNat < 128) : utf8Decode (utf8Encode l) = some l := by
  have := len_le_utf8Encode l
  exact utf8DecodeAux_ascii l ((utf8Encode l).length + 1) h (by omega)

/-! ## Lemmas: JSON string escaping round trip -/

theorem escapeChar_len (c : Char) : 1 ≤ (escapeChar c).length := by
  unfold escapeChar
  split_ifs <;> simp [hex4]

theorem len_le_escapeString (l : List Char) :
    l.length ≤ ((l.map escapeChar).flatten).length := by
  induction l with
  | nil => simp
  | cons c cs ih =>
    have := escapeChar_len c
    simp only [List.map_cons, List.flatten_cons, List.length_append,
      List.length_cons]
    omega

theorem parseU_hex4 (n : Nat) (rest : List Char) (hlt : n < 65536)
    (hsur : ¬(55296 ≤ n ∧ n < 57344)) :
    parseU (hex4 n ++ rest) = some (some (Char.ofNat n), rest) := by
  have h1 : n / 4096 % 16 < 16 := by omega
  have h2 : n / 256 % 16 < 16 := by omega
  have h3 : n / 16 % 16 < 16 := by omega
  have h4 : n % 16 < 16 := by omega
  simp only [hex4, List.cons_append, List.nil_append]
  rw [parseU]
  simp only [hexVal_hexDigitChar h1, hexVal_hexDigitChar h2,
    hexVal_hexDigitChar h3, hexVal_hexDigitChar h4, Option.bind_eq_bind,
    Option.some_bind]
  have harith : ((n / 4096 % 16 * 16 + n / 256 % 16) * 16 + n / 16 % 16) * 16
      + n % 16 = n := by omega
  rw [harith, if_neg (by omega), if_neg (by omega)]

theorem parseLowSurrogate_hex4 (n m : Nat) (rest : List Char)
    (hm1 : 56320 ≤ m) (hm2 : m < 57344) :
    parseLowSurrogate n ('\\' :: 'u' :: (hex4 m ++ rest)) =
      some (some (Char.ofNat (65536 + (n - 55296) * 1024 + (m - 56320))), rest) := by
  have h1 : m / 4096 % 16 < 16 := by omega
  have h2 : m / 256 % 16 < 16 := by omega
  have h3 : m / 16 % 16 < 16 := by omega
  have h4 : m % 16 < 16 := by omega
  simp only [hex4, List.cons_append, List.nil_append]
  rw [parseLowSurrogate]
  simp only [hexVal_hexDigitChar h1, hexVal_hexDigitChar h2,
    hexVal_hexDigitChar h3, hexVal_hexDigitChar h4, Option.bind_eq_bind,
    Option.some_bind]
  have harith : ((m / 4096 % 16 * 16 + m / 256 % 16) * 16 + m / 16 % 16) * 16
      + m % 16 = m := by omega
  rw [harith, if_pos ⟨hm1, hm2⟩]

theorem char_not_surrogate (c : Char) : c.toNat < 55296 ∨ 57343 < c.toNat := by
  rcases c.valid with h | h
  · exact Or.inl h
  · exact Or.inr h.1

theorem parseU_hex4_high (n : Nat) (rest : List Char) (h1 : 55296 ≤ n)
    (h2 : n < 56320) : parseU (hex4 n ++ rest) = parseLowSurrogate n rest := by
  have ha : n / 4096 % 16 < 16 := by omega
  have hb : n / 256 % 16 < 16 := by omega
  have hc : n / 16 % 16 < 16 := by omega
  have hd : n % 16 < 16 := by omega
  simp only [hex4, List.cons_append, List.nil_append]
  rw [parseU]
  simp only [hexVal_hexDigitChar ha, hexVal_hexDigitChar hb,
    hexVal_hexDigitChar hc, hexVal_hexDigitChar hd, Option.bind_eq_bind,
    Option.some_bind]
  have harith : ((n / 4096 % 16 * 16 + n / 256 % 16) * 16 + n / 16 % 16) * 16
      + n % 16 = n := by omega
  rw [harith, if_pos ⟨h1, h2⟩]

theorem parseStrStep_escapeChar (c : Char) (rest : List Char) :
    parseStrStep (escapeChar c ++ rest) = some (some c, rest) := by
  unfold escapeChar
  split_ifs with h1 h2 h3 h4 h5 h6 h7 h8 h9
  · subst h1; rfl
  · subst h2; rfl
  · subst h3; rfl
  · subst h4; rfl
  · subst h5; rfl
  · subst h6; rfl
  · subst h7; rfl
  · simp only [List.cons_append, List.nil_append]
    rw [parseStrStep, if_neg (by rintro rfl; simp at h1),
      if_neg (by rintro rfl; simp at h2), if_neg (by omega)]
  · simp only [List.cons_append, List.nil_append]
    rw [parseStrStep, if_neg (by decide), if_pos rfl, parseEscape,
      if_pos rfl]
    have hsur : ¬(55296 ≤ c.toNat ∧ c.toNat < 57344) := by
      rcases char_not_surrogate c with h | h <;> omega
    rw [parseU_hex4 c.toNat rest h9 hsur, Char.ofNat_toNat]
  · simp only [List.cons_append, List.nil_append, List.append_assoc]
    rw [parseStrStep, if_neg (by decide), if_pos rfl, parseEscape,
      if_pos rfl]
    have hval := char_toNat_lt c
    have h65536 : 65536 ≤ c.toNat := by omega
    have hdiv : (c.toNat - 65536) / 1024 < 1024 := by omega
    have hmod : (c.toNat - 65536) % 1024 < 1024 := by omega
    rw [parseU_hex4_high (55296 + (c.toNat - 65536) / 1024) _ (by omega) (by omega),
      parseLowSurrogate_hex4 (55296 + (c.toNat - 65536) / 1024)
        (56320 + (c.toNat - 65536) % 1024) rest (by omega) (by omega)]
    have heq : 65536 + (55296 + (c.toNat - 65536) / 1024 - 55296) * 1024 +
        (56320 + (c.toNat - 65536) % 1024 - 56320) = c.toNat := by omega
    rw [heq, Char.ofNat_toNat]

theorem parseStrBody_escapeString : ∀ (l : List Char) (f : Nat) (rest : List Char),
    l.length < f →
    parseStrBody f ((l.map escapeChar).flatten ++ '"' :: rest) = some (l, rest)
  | [], f + 1, rest, _ => by
    simp only [List.map_nil, List.flatten_nil, List.nil_append]
    rw [parseStrBody]
    rfl
  | c :: cs, f + 1, rest, h => by
    have ih := parseStrBody_escapeString cs f rest (by simpa using h)
    simp only [List.map_cons, List.flatten_cons, List.append_assoc]
    rw [parseStrBody, parseStrStep_escapeChar]
    simp [ih]

/-! ## Lemmas: the JSON codec round trip -/

theorem string_mk_toList (s : String) : String.mk s.toList = s := by
  cases s
  rfl

theorem jsize_pos (j : Json) : 1 ≤ jsize j := by
  cases j <;> simp [jsize]

theorem dumpsArr_cons : ∀ (x : Json) (xs : List Json),
    dumpsArr (x :: xs) = dumpsJson x ++ dumpsArrSep xs
  | x, [] => by simp [dumpsArr, dumpsArrSep]
  | x, y :: ys => by
    rw [dumpsArr, dumpsArr_cons y ys]
    simp [dumpsArrSep]

theorem hexDigitChar_ascii {d : Nat} (h : d < 16) :
    (hexDigitChar d).toNat < 128 := by
  interval_cases d <;> decide

theorem hex4_ascii (n : Nat) : ∀ x ∈ hex4 n, x.toNat < 128 := by
  intro x hx
  simp only [hex4, List.mem_cons, List.not_mem_nil, or_false] at hx
  rcases hx with rfl | rfl | rfl | rfl <;> exact hexDigitChar_ascii (by omega)

theorem escapeChar_ascii (c : Char) : ∀ x ∈ escapeChar c, x.toNat < 128 := by
  intro x hx
  unfold escapeChar at hx
  split_ifs at hx with h1 h2 h3 h4 h5 h6 h7 h8 h9
  · simp at hx; rcases hx with rfl | rfl <;> decide
  · simp at hx; subst hx; decide
  · simp at hx; rcases hx with rfl | rfl <;> decide
  · simp at hx; rcases hx with rfl | rfl <;> decide
  · simp at hx; rcases hx with rfl | rfl <;> decide
  · simp at hx; rcases hx with rfl | rfl <;> decide
  · simp at hx; rcases hx with rfl | rfl <;> decide
  · simp at hx; subst hx; omega
  · rcases List.mem_cons.1 hx with rfl | hx
    · decide
    rcases List.mem_cons.1 hx with rfl | hx
    · decide
    exact hex4_ascii _ x hx
  · rcases List.mem_append.1 hx with hx | hx <;>
      · rcases List.mem_cons.1 hx with rfl | hx
        · decide
        rcases List.mem_cons.1 hx with rfl | hx
        · decide
        exact hex4_ascii _ x hx

theorem jsize_le_of_mem : ∀ {d : Json} {xs : List Json}, d ∈ xs → jsize d ≤ jsizeL xs := by
  intro d xs hd
  induction xs with
  | nil => simp at hd
  | cons y ys ih =>
    rw [jsizeL]
    rcases List.mem_cons.1 hd with rfl | hd
    · omega
    · have := ih hd
      have := jsize_pos y
      omega

theorem dumps_ascii_aux : ∀ f : Nat,
    (∀ j : Json, jsize j ≤ f → ∀ c ∈ dumpsJson j, c.toNat < 128) ∧
    (∀ js : List Json, jsizeL js ≤ f → ∀ c ∈ dumpsArr js, c.toNat < 128) := by
  intro f
  induction f with
  | zero =>
    constructor
    · intro j hj
      have := jsize_pos j
      omega
    · intro js hjs c hc
      match js with
      | [] => simp [dumpsArr] at hc
      | x :: xs =>
        have := jsize_pos x
        rw [jsizeL] at hjs
        omega
  | succ f ih =>
    have hP : ∀ j : Json, jsize j ≤ f + 1 → ∀ c ∈ dumpsJson j, c.toNat < 128 := by
      intro j hj c hc
      match j with
      | .str s =>
        rw [dumpsJson] at hc
        rcases List.mem_cons.1 hc with rfl | hc
        · decide
        rcases List.mem_append.1 hc with hc | hc
        · simp only [escapeString, List.mem_flatten, List.mem_map] at hc
          obtain ⟨_, ⟨d, _, rfl⟩, hm⟩ := hc
          exact escapeChar_ascii d c hm
        · simp at hc
          subst hc
          decide
      | .arr xs =>
        rw [dumpsJson] at hc
        rcases List.mem_cons.1 hc with rfl | hc
        · decide
        rcases List.mem_append.1 hc with hc | hc
        · have hxs : jsizeL xs ≤ f := by
            rw [jsize] at hj
            omega
          exact ih.2 xs hxs c hc
        · simp at hc
          subst hc
          decide
    refine ⟨hP, ?_⟩
    intro js hjs c hc
    match js with
    | [] => simp [dumpsArr] at hc
    | x :: xs =>
      rw [dumpsArr_cons] at hc
      have hx : jsize x ≤ f + 1 := by
        rw [jsizeL] at hjs
        have := jsize_pos x
        omega
      rcases List.mem_append.1 hc with hc | hc
      · exact hP x hx c hc
      · simp only [dumpsArrSep, List.mem_flatten, List.mem_map] at hc
        obtain ⟨_, ⟨d, hd, rfl⟩, hm⟩ := hc
        rcases List.mem_cons.1 hm with rfl | hm
        · decide
        · have hdsz : jsize d ≤ f + 1 := by
            have := jsize_le_of_mem hd
            rw [jsizeL] at hjs
            have := jsize_pos x
            omega
          exact hP d hdsz c hm

theorem dumps_ascii (j : Json) : ∀ c ∈ dumpsJson j, c.toNat < 128 :=
  (dumps_ascii_aux (jsize j)).1 j le_rfl

theorem dumpsJson_head (j : Json) :
    ∃ t, dumpsJson j = '"' :: t ∨ dumpsJson j = '[' :: t := by
  cases j with
  | str s =>
    refine ⟨escapeString s ++ ['"'], Or.inl ?_⟩
    rw [dumpsJson]
    simp
  | arr xs =>
    refine ⟨dumpsArr xs ++ [']'], Or.inr ?_⟩
    rw [dumpsJson]
    simp

theorem parse_dumps_aux : ∀ f : Nat,
    (∀ (j : Json) (rest : List Char), jsize j ≤ f →
      parseJson f (dumpsJson j ++ rest) = some (j, rest)) ∧
    (∀ (js : List Json) (rest : List Char), jsizeL js < f →
      parseElems f (dumpsArrSep js ++ ']' :: rest) = some (js, rest)) := by
  intro f
  induction f with
  | zero =>
    constructor
    · intro j rest hj
      have := jsize_pos j
      omega
    · intro js rest hjs
      omega
  | succ f ih =>
    have hP : ∀ (j : Json) (rest : List Char), jsize j ≤ f + 1 →
        parseJson (f + 1) (dumpsJson j ++ rest) = some (j, rest) := by
      intro j rest hj
      match j with
      | .str s =>
        have hshape : dumpsJson (Json.str s) ++ rest
            = '"' :: (escapeString s ++ '"' :: rest) := by
          rw [dumpsJson]
          simp
        rw [hshape, parseJson]
        have hlen : s.toList.length < (escapeString s ++ '"' :: rest).length + 1 := by
          have h := len_le_escapeString s.toList
          simp only [escapeString, List.length_append, List.length_cons]
          omega
        simp only [escapeString] at hlen ⊢
        rw [parseStrBody_escapeString s.toList _ rest hlen]
        simp [string_mk_toList]
      | .arr [] =>
        have hshape : dumpsJson (Json.arr []) ++ rest = '[' :: ']' :: rest := by
          rw [dumpsJson]
          simp [dumpsArr]
        rw [hshape, parseJson]
      | .arr (x :: xs) =>
        have hx : jsize x ≤ f := by
          rw [jsize, jsizeL] at hj
          have := jsize_pos x
          omega
        have hxs : jsizeL xs < f := by
          rw [jsize, jsizeL] at hj
          have := jsize_pos x
          omega
        have h1 := ih.1 x (dumpsArrSep xs ++ ']' :: rest) hx
        have h2 := ih.2 xs rest hxs
        obtain ⟨t, ht⟩ := dumpsJson_head x
        have hshape : dumpsJson (Json.arr (x :: xs)) ++ rest
            = '[' :: (dumpsJson x ++ (dumpsArrSep xs ++ ']' :: rest)) := by
          rw [dumpsJson, dumpsArr_cons]
          simp
        rw [hshape]
        rcases ht with ht | ht <;>
        · rw [ht] at h1 ⊢
          simp only [List.cons_append] at h1 ⊢
          rw [parseJson]
          all_goals first
            | (intro r hr; simp at hr)
            | simp [h1, h2]
    refine ⟨hP, ?_⟩
    intro js rest hjs
    match js with
    | [] =>
      simp only [dumpsArrSep, List.map_nil, List.flatten_nil, List.nil_append]
      rw [parseElems]
    | x :: xs =>
      have hx : jsize x ≤ f := by
        rw [jsizeL] at hjs
        have := jsize_pos x
        omega
      have hxs : jsizeL xs < f := by
        rw [jsizeL] at hjs
        have := jsize_pos x
        omega
      have h1 := hP x (dumpsArrSep xs ++ ']' :: rest) (by omega)
      have h1' := ih.1 x (dumpsArrSep xs ++ ']' :: rest) hx
      have h2 := ih.2 xs rest hxs
      have hshape : dumpsArrSep (x :: xs) ++ ']' :: rest
          = ',' :: (dumpsJson x ++ (dumpsArrSep xs ++ ']' :: rest)) := by
        simp [dumpsArrSep]
      rw [hshape, parseElems]
      simp [h1', h2]

theorem jsize_le_len_aux : ∀ f : Nat,
    (∀ j : Json, jsize j ≤ f → jsize j ≤ (dumpsJson j).length) ∧
    (∀ js : List Json, jsizeL js ≤ f → jsizeL js ≤ 1 + (dumpsArr js).length) := by
  intro f
  induction f with
  | zero =>
    constructor
    · intro j hj
      have := jsize_pos j
      omega
    · intro js hjs
      match js with
      | [] => simp [jsizeL]
      | x :: xs =>
        have := jsize_pos x
        rw [jsizeL] at hjs
        omega
  | succ f ih =>
    have hP : ∀ j : Json, jsize j ≤ f + 1 → jsize j ≤ (dumpsJson j).length := by
      intro j hj
      match j with
      | .str s =>
        rw [dumpsJson, jsize]
        simp
      | .arr xs =>
        rw [dumpsJson, jsize]
        have hxs : jsizeL xs ≤ f := by
          rw [jsize] at hj
          omega
        have := ih.2 xs hxs
        simp only [List.length_cons, List.length_append, List.length_singleton]
        omega
    refine ⟨hP, ?_⟩
    intro js hjs
    match js with
    | [] => simp [jsizeL]
    | [x] =>
      rw [jsizeL, jsizeL, dumpsArr]
      have := hP x (by rw [jsizeL, jsizeL] at hjs; omega)
      omega
    | x :: y :: ys =>
      rw [jsizeL, dumpsArr]
      have hx : jsize x ≤ f + 1 := by
        rw [jsizeL, jsizeL] at hjs
        have := jsize_pos x
        have := jsize_pos y
        omega
      have hyys : jsizeL (y :: ys) ≤ f := by
        rw [jsizeL] at hjs
        have := jsize_pos x
        omega
      have h1 := hP x hx
      have h2 := ih.2 (y :: ys) hyys
      simp only [List.length_append, List.length_cons]
      omega

theorem loads_dumps (j : Json) : loads (dumps j) = some j := by
  have hsz : jsize j ≤ (dumpsJson j).length :=
    (jsize_le_len_aux (jsize j)).1 j le_rfl
  have hp := (parse_dumps_aux ((dumpsJson j).length + 1)).1 j [] (by omega)
  rw [List.append_nil] at hp
  have htl : (dumps j).toList = dumpsJson j := rfl
  rw [loads, htl, hp]

/-- Decoding inverts encoding for every JSON value, whether or not it
has the shape of a pack: `pack_decode_from` performs no validation
beyond what `json.loads` itself checks. -/
theorem json_decode_encode (j : Json) : pack_decode_from (json_encode j) = .ok j := by
  have hascii := dumps_ascii j
  have hbytes := utf8Encode_bytes (dumpsJson j)
  have hcb := compress_bytes hbytes
  have h1 : bytesFromHex (json_encode j).toList
      = some (compress (utf8Encode (dumpsJson j))) := by
    have ht : (json_encode j).toList = bytesToHex (compress (utf8Encode (dumpsJson j))) := rfl
    rw [ht, bytesFromHex_bytesToHex hcb]
  have h2 := decompress_compress hbytes
  have h3 : utf8Decode (utf8Encode (dumpsJson j)) = some (dumpsJson j) :=
    utf8Decode_utf8Encode_ascii hascii
  have h4 : loads ⟨dumpsJson j⟩ = some j := loads_dumps j
  rw [pack_decode_from, h1]
  simp only [h2, h3, h4]

theorem mapM_strOfJson_map_str (ls : List String) :
    (ls.map Json.str).mapM strOfJson = some ls := by
  induction ls with
  | nil => rfl
  | cons s ss ih =>
    simp only [List.map_cons, List.mapM_cons, strOfJson, ih, Option.pure_def,
      Option.bind_eq_bind, Option.some_bind]

theorem blockOfJson_ofBlock (b : Block) :
    blockOfJson (.arr [.str b.1, .arr (b.2.map Json.str)]) = some b := by
  rw [blockOfJson]
  rw [mapM_strOfJson_map_str]
  rfl

theorem packOfJson_jsonOfPack (p : Pack) : packOfJson (jsonOfPack p) = some p := by
  induction p with
  | nil => rfl
  | cons b bs ih =>
    rw [jsonOfPack] at ih ⊢
    rw [packOfJson] at ih ⊢
    simp only [List.map_cons, List.mapM_cons, blockOfJson_ofBlock, ih,
      Option.pure_def, Option.bind_eq_bind, Option.some_bind]

/-! ## Lemmas: the segmenter and normalization -/

theorem startsWithL_refl : ∀ l : List Char, startsWithL l l = true
  | [] => rfl
  | c :: cs => by simp [startsWithL, startsWithL_refl cs]

theorem dropWhile_head_not {α : Type} {p : α → Bool} :
    ∀ {L : List α} {d : α} {ds : List α}, List.dropWhile p L = d :: ds → p d = false := by
  intro L
  induction L with
  | nil => intro d ds h; simp [List.dropWhile] at h
  | cons c cs ih =>
    intro d ds h
    rw [List.dropWhile_cons] at h
    by_cases hp : p c
    · rw [if_pos hp] at h
      exact ih h
    · have hp' : p c = false := by simpa using hp
      rw [hp'] at h
      simp only [Bool.false_eq_true, if_false] at h
      injection h with h1 h2
      rw [← h1]
      exact hp'

theorem scan_head_none {p : String → Bool} :
    ∀ ls : List String, (∀ l ∈ ls, p l = false) → scan_head p ls = .error .indexError := by
  intro ls h
  induction ls with
  | nil => rfl
  | cons l ls ih =>
    rw [scan_head, if_neg (by simp [h l (List.mem_cons_self ..)])]
    exact ih (fun x hx => h x (List.mem_cons_of_mem _ hx))

theorem rstripL_not_isspace (l : List Char) : pyIsspace ⟨rstripL l⟩ = false := by
  show (!(rstripL l).isEmpty && (rstripL l).all isPySpace) = false
  cases hr : rstripL l with
  | nil => rfl
  | cons x xs =>
    rw [rstripL] at hr
    cases hdw : List.dropWhile isPySpace l.reverse with
    | nil => rw [hdw] at hr; simp at hr
    | cons d ds =>
      have hd : isPySpace d = false := dropWhile_head_not hdw
      rw [hdw] at hr
      have hmem : d ∈ x :: xs := by
        rw [← hr]
        simp
      have hall : (x :: xs).all isPySpace = false := by
        cases hq : (x :: xs).all isPySpace with
        | false => rfl
        | true => exact absurd (List.all_eq_true.1 hq d hmem) (by simp [hd])
      rw [hall, Bool.and_false]

theorem findSub_lstrip : ∀ l : List Char,
    findSub l (lstripL l) =
      if lstripL l = [] then 0 else (l.takeWhile isPySpace).length := by
  intro l
  induction l with
  | nil => simp [findSub, lstripL]
  | cons c cs ih =>
    by_cases hp : isPySpace c
    · have hdw : lstripL (c :: cs) = lstripL cs := by
        simp [lstripL, List.dropWhile_cons, hp]
      rw [hdw]
      cases hcs : lstripL cs with
      | nil =>
        simp [findSub, startsWithL]
      | cons d ds =>
        have hd : isPySpace d = false :=
          dropWhile_head_not (by simpa [lstripL] using hcs)
        have hsw : startsWithL (d :: ds) (c :: cs) = false := by
          rw [startsWithL]
          have hdc : decide (d = c) = false := by
            apply decide_eq_false
            intro hdc
            rw [hdc] at hd
            simp [hd] at hp
          rw [hdc, Bool.false_and]
        rw [findSub, if_neg (by simp [hsw])]
        rw [hcs] at ih
        rw [if_neg (by simp)] at ih
        rw [ih, List.takeWhile_cons, if_pos hp]
        simp [Nat.add_comm]
    · have hdw : lstripL (c :: cs) = c :: cs := by
        simp [lstripL, List.dropWhile_cons, hp]
      rw [hdw, findSub, if_pos (by simp [startsWithL_refl])]
      rw [if_neg (by simp), List.takeWhile_cons, if_neg (by simpa using hp)]
      simp

theorem line_indent_spec (s : String) :
    line_indent s =
      if lstripL s.toList = [] then 0 else (s.toList.takeWhile isPySpace).length :=
  findSub_lstrip s.toList

theorem takeWhile_drop_of_le {p : Char → Bool} :
    ∀ (m : Nat) (l : List Char), m ≤ (l.takeWhile p).length →
      (l.drop m).takeWhile p = (l.takeWhile p).drop m ∧
        (l.drop m).dropWhile p = l.dropWhile p := by
  intro m
  induction m with
  | zero => intro l _; simp
  | succ m ih =>
    intro l h
    match l with
    | [] => simp at h
    | c :: cs =>
      have hp : p c = true := by
        by_contra hpc
        rw [List.takeWhile_cons, if_neg (by simpa using hpc)] at h
        simp at h
      rw [List.takeWhile_cons, if_pos hp] at h ⊢
      rw [List.dropWhile_cons, if_pos hp, List.drop_succ_cons]
      simpa using ih cs (by simpa using h)

theorem list_min_le_self : ∀ (l : List Nat) (a : Nat), list_min a l ≤ a := by
  intro l
  induction l with
  | nil => intro a; simp [list_min]
  | cons b bs ih =>
    intro a
    calc list_min a (b :: bs) = list_min (Nat.min a b) bs := by
          simp [list_min, List.foldl_cons]
      _ ≤ Nat.min a b := ih _
      _ ≤ a := Nat.min_le_left ..

theorem list_min_le_mem : ∀ (l : List Nat) (a x : Nat), x ∈ l → list_min a l ≤ x := by
  intro l
  induction l with
  | nil => intro a x hx; simp at hx
  | cons b bs ih =>
    intro a x hx
    have hstep : list_min a (b :: bs) = list_min (Nat.min a b) bs := by
      simp [list_min, List.foldl_cons]
    rcases List.mem_cons.1 hx with rfl | hx
    · calc list_min a (x :: bs) = list_min (Nat.min a x) bs := by
            simp [list_min, List.foldl_cons]
        _ ≤ Nat.min a x := list_min_le_self ..
        _ ≤ x := Nat.min_le_right ..
    · rw [hstep]
      exact ih _ x hx

theorem min_sub_right (a b m : Nat) : Nat.min (a - m) (b - m) = Nat.min a b - m := by
  simp only [Nat.min_def]
  split_ifs <;> omega

theorem list_min_map_sub : ∀ (l : List Nat) (a m : Nat),
    list_min (a - m) (l.map (fun x => x - m)) = list_min a l - m := by
  intro l
  induction l with
  | nil => intro a m; simp [list_min]
  | cons b bs ih =>
    intro a m
    simp only [List.map_cons, list_min, List.foldl_cons]
    rw [min_sub_right]
    exact ih (Nat.min a b) m

theorem body_lines_map (f : String → String) :
    ∀ pack : Pack,
      body_lines (pack.map (fun b => (b.1, b.2.map f))) = (body_lines pack).map f := by
  intro pack
  induction pack with
  | nil => rfl
  | cons b bs ih =>
    simp only [List.map_cons, body_lines, List.flatten_cons] at ih ⊢
    rw [ih]
    simp [List.map_append]

theorem strDrop_zero (s : String) : strDrop s 0 = s := by
  rw [strDrop, List.drop_zero, string_mk_toList]

theorem line_indent_strDrop (s : String) (m : Nat) (hm : m ≤ line_indent s) :
    line_indent (strDrop s m) = line_indent s - m := by
  by_cases hempty : lstripL s.toList = []
  · rw [line_indent_spec s, if_pos hempty] at hm
    have hm0 : m = 0 := by omega
    rw [hm0, strDrop_zero]
    omega
  · rw [line_indent_spec s, if_neg hempty] at hm ⊢
    have hsplit := takeWhile_drop_of_le (p := isPySpace) m s.toList hm
    have htl : (strDrop s m).toList = s.toList.drop m := rfl
    have hne2 : lstripL (strDrop s m).toList ≠ [] := by
      rw [htl]
      show List.dropWhile isPySpace (s.toList.drop m) ≠ []
      rw [hsplit.2]
      exact hempty
    rw [line_indent_spec (strDrop s m), if_neg hne2, htl, hsplit.1,
      List.length_drop]

/-- C9: Indentation normalization is idempotent: whenever the
normalization step of source lines 125-131 (minimum recorded indentation
over all body lines, then `line[least_indent:]` on each) maps a block
list `A` (with at least one body line, else the step fails) to `B`,
re-applying the same step to `B` returns `B` unchanged. -/
theorem renormalize_idempotent (A B : Pack) (h : renormalize A = .ok B) :
    renormalize B = .ok B := by
  rw [renormalize] at h
  cases hbl : (body_lines A).map line_indent with
  | nil =>
    rw [hbl, normalize_pack] at h
    simp at h
  | cons i is =>
    rw [hbl, normalize_pack] at h
    simp only [Except.ok.injEq] at h
    have hmem : ∀ line ∈ body_lines A, list_min i is ≤ line_indent line := by
      intro line hline
      have : line_indent line ∈ i :: is := by
        rw [← hbl]
        exact List.mem_map_of_mem _ hline
      rcases List.mem_cons.1 this with heq | hmm
      · rw [← heq] at *
        exact list_min_le_self ..
      · exact list_min_le_mem is i _ hmm
    have hB : body_lines B =
        (body_lines A).map (fun line => strDrop line (list_min i is)) := by
      rw [← h]
      exact body_lines_map _ A
    have hind : (body_lines B).map line_indent
        = (i :: is).map (fun x => x - list_min i is) := by
      rw [hB, List.map_map, ← hbl, List.map_map]
      apply List.map_congr_left
      intro line hline
      exact line_indent_strDrop line _ (hmem line hline)
    rw [renormalize, hind, List.map_cons, normalize_pack]
    have hmin : list_min (i - list_min i is) (is.map (fun x => x - list_min i is))
        = 0 := by
      rw [list_min_map_sub]
      omega
    rw [hmin]
    simp [strDrop_zero]

theorem appendLast_ne_nil (p : Pack) (line : String) (hp : p ≠ []) :
    appendLast p line ≠ [] := by
  match p with
  | [(lbl, body)] => simp [appendLast]
  | (lbl, body) :: b :: bs => simp [appendLast]
  | [] => exact absurd rfl hp

theorem body_lines_appendLast : ∀ (p : Pack) (line : String), p ≠ [] →
    body_lines (appendLast p line) = body_lines p ++ [line] := by
  intro p line hp
  match p with
  | [] => exact absurd rfl hp
  | [(lbl, body)] => simp [appendLast, body_lines]
  | (lbl, body) :: b :: bs =>
    have ih := body_lines_appendLast (b :: bs) line (by simp)
    show body_lines ((lbl, body) :: appendLast (b :: bs) line) = _
    simp only [body_lines, List.map_cons, List.flatten_cons] at ih ⊢
    rw [ih]
    simp [List.append_assoc]

theorem body_lines_append_empty_block (p : Pack) (m : String) :
    body_lines (p ++ [(m, [])]) = body_lines p := by
  simp [body_lines]

/-- The segmentation loop's recorded `indents` list is exactly
`line.find(line.lstrip())` of the body lines of the pack it builds, in
order — so the normalization stage of `deal_with` is the re-applicable
`renormalize` step. -/
theorem pack_step_foldl_indents : ∀ (lines : List String) (p : Pack) (ind : List Nat),
    p ≠ [] → ind = (body_lines p).map line_indent →
    (lines.foldl pack_step (p, ind)).2
        = (body_lines (lines.foldl pack_step (p, ind)).1).map line_indent ∧
      (lines.foldl pack_step (p, ind)).1 ≠ [] := by
  intro lines
  induction lines with
  | nil => intro p ind hp hind; exact ⟨hind, hp⟩
  | cons line rest ih =>
    intro p ind hp hind
    rw [List.foldl_cons]
    by_cases hm : markerMatchL line.toList
    · have hstep : pack_step (p, ind) line
          = (p ++ [(clip_marker line.toList, [])], ind) := by
        rw [pack_step, if_pos hm]
      rw [hstep]
      exact ih _ _ (by simp) (by rw [body_lines_append_empty_block]; exact hind)
    · have hstep : pack_step (p, ind) line
          = (appendLast p line, ind ++ [line_indent line]) := by
        rw [pack_step, if_neg hm]
      rw [hstep]
      refine ih _ _ (appendLast_ne_nil p line hp) ?_
      rw [body_lines_appendLast p line hp, List.map_append, hind]
      rfl

/-- The final stage of `deal_with` is exactly `renormalize` applied to
the block list the loop built. -/
theorem deal_with_eq_renormalize (src : List String) (func_name : String)
    (def_str : String) (rest : List String)
    (hscan : scan_head (fun l => startMatchL func_name.toList l.toList)
        (clean_lines src) = .ok (def_str, rest)) :
    deal_with src func_name =
      renormalize
        (rest.foldl pack_step ([(clip_start_marker def_str.toList, [])], [])).1 := by
  rw [deal_with, hscan]
  have h := pack_step_foldl_indents rest
    [(clip_start_marker def_str.toList, [])] [] (by simp) (by simp [body_lines])
  rw [renormalize, ← h.1]

/-! ## Lemmas: the pack object -/

theorem try_warning_ok_len (st st2 : PackState) (em : List String)
    (h : try_warning st = .ok (st2, em)) :
    em.length = if st.warning_update then 1 else 0 := by
  rw [try_warning] at h
  split_ifs at h with hw
  · rw [if_pos hw]
    cases hinfo : st.warning_update_info with
    | some i =>
      rw [hinfo] at h
      simp only [Except.ok.injEq, Prod.mk.injEq] at h
      rw [← h.2]
      rfl
    | none =>
      rw [hinfo] at h
      cases hwa : st.wrapper_attrs with
      | none => rw [hwa] at h; exact absurd h (by simp)
      | some f =>
        rw [hwa] at h
        simp only [Except.ok.injEq, Prod.mk.injEq] at h
        rw [← h.2]
        rfl
  · rw [if_neg hw]
    simp only [Except.ok.injEq, Prod.mk.injEq] at h
    rw [← h.2]
    rfl

theorem pack_init_ok_shape (origin : String) (wu : Bool) (func : Option FuncMeta) :
    ∀ (st : PackState) (em : List String),
      pack_init origin wu func = .ok (st, em) →
      ∃ sp dict, pack_decode_from origin = .ok sp ∧
        (json_iter sp).mapM dict_index_entry = .ok dict ∧
        try_warning
          { origin_pack_encoded_attr := origin
            warning_update := wu
            encoding := "utf-8"
            source_pack := sp
            dict_index := dict
            wrapper_attrs := func
            warning_update_info := none } = .ok (st, em) := by
  intro st em h
  rw [pack_init] at h
  split at h
  · exact absurd h (by simp)
  · rename_i sp h1
    split at h
    · exact absurd h (by simp)
    · rename_i dict h2
      exact ⟨sp, dict, h1, h2, h⟩

/-! ## The claims -/

/-- C1: Round-trip contract.  For every valid Pack `P` (ordered list of
`[label, lines]` pairs), decoding the encoding of `P` yields `P` exactly
— `pack_decode_from` returns precisely the JSON value `P` is, and that
value determines `P` (same labels, lines and order); the quantifier
covers packs with zero blocks and blocks with zero lines. -/
theorem pack_roundtrip_exact (P : Pack) :
    pack_decode_from (encode_pack P) = .ok (jsonOfPack P) ∧
      packOfJson (jsonOfPack P) = some P :=
  ⟨json_decode_encode (jsonOfPack P), packOfJson_jsonOfPack P⟩

/-- C9 witness: the claim instantiated at the one-block list
`[("x", ["  a"])]`, whose normalization yields `[("x", ["a"])]`. -/
theorem renormalize_idempotent_witness :
    renormalize [("x", ["a"])] = .ok [("x", ["a"])] :=
  renormalize_idempotent [("x", ["  a"])] [("x", ["a"])] (by rfl)

/-- C8: Scenario A.  Segmenting
`["def f(x):", "  a", "  ### step2", "  b"]` for function name `f`
produces exactly the pack `[["x", ["a"]], ["step2", ["b"]]]`. -/
theorem deal_with_scenario_a :
    deal_with ["def f(x):", "  a", "  ### step2", "  b"] "f"
      = .ok [("x", ["a"]), ("step2", ["b"])] := rfl

/-- C3: when segmentation produces no body lines at all (here: a matching
declaration line followed by one section-marker line), `min(indents)` is
taken over an empty sequence and `deal_with` raises `ValueError` instead
of returning the blocks with `least_indent = 0` as the spec states. -/
theorem deal_with_no_body_lines_raises :
    deal_with ["def f(x):", "  ### s2"] "f" = .error .valueErrorMinEmpty := rfl

/-- C6: if no (rstripped) input line fully matches the anchor pattern
`\s*def\s*{func_name}\(.*\):` for the requested name, segmentation
fails — the head scan runs past the end of the list (Python's
`IndexError`, the spec's `MarkerNotFound` condition) and no pack is
produced. -/
theorem deal_with_marker_not_found (src : List String) (func_name : String)
    (h : ∀ l ∈ src, startMatchL func_name.toList (rstripL l.toList) = false) :
    deal_with src func_name = .error .indexError := by
  rw [deal_with]
  have hscan : scan_head (fun l => startMatchL func_name.toList l.toList)
      (clean_lines src) = .error .indexError := by
    apply scan_head_none
    intro l hl
    simp only [clean_lines, List.mem_map, List.mem_filter] at hl
    obtain ⟨l0, ⟨hl0, _⟩, rfl⟩ := hl
    exact h l0 hl0
  rw [hscan]

/-- C6 witness: the claim instantiated at Scenario B — a source whose
declaration line is for `g` while `f` is requested. -/
theorem deal_with_marker_not_found_witness :
    deal_with ["def g(x):"] "f" = .error .indexError :=
  deal_with_marker_not_found ["def g(x):"] "f" (by decide)

/-- C7 counterexample: the claim "every line that is entirely whitespace
(blank) is dropped before segmentation, so no blank line ever appears in
any produced block body" is false for the empty line: Python's
`"".isspace()` is `False`, so `""` survives the filter of source lines
97-100 and lands in the block body. -/
theorem blank_line_in_body_counterexample :
    deal_with ["def f(x):", "  a", ""] "f" = .ok [("x", ["  a", ""])] ∧
      "" ∈ body_lines [("x", ["  a", ""])] := ⟨rfl, by decide⟩

/-- C7 amended: every nonempty line consisting entirely of whitespace is
dropped before segmentation (so no such line can appear in a block body
or affect marker search), but the empty string is not — `"".isspace()`
is false — so empty lines survive cleaning and may appear in block
bodies.  Every surviving line satisfies `isspace() = False`. -/
theorem clean_lines_no_whitespace_only (src : List String) (l : String)
    (h : l ∈ clean_lines src) : pyIsspace l = false := by
  simp only [clean_lines, List.mem_map] at h
  obtain ⟨l0, _, rfl⟩ := h
  exact rstripL_not_isspace l0.toList

/-- C7 amended witness: the cleaned form of `["x "]` contains `"x"`,
which is not whitespace-only. -/
theorem clean_lines_no_whitespace_only_witness : pyIsspace "x" = false :=
  clean_lines_no_whitespace_only ["x "] "x" (by decide)

/-- C5: the accessor property `origin_pack_encoded` (source lines
232-235) returns `self.origin_pack_encoded` — the property itself — so
every access re-enters the property and ends in `RecursionError` at any
recursion budget, instead of terminating with the stored encoded string
(which `__init__` saved under `_origin_pack_encoded`). -/
theorem origin_pack_encoded_infinite_recursion (st : PackState) (gas : Nat) :
    origin_pack_encoded_prop st gas = .error .recursionError := by
  induction gas with
  | zero => rfl
  | succ g ih => rw [origin_pack_encoded_prop]; exact ih

/-- C4 counterexample: decoding fails *only* on hex, decompression or
JSON-parse failure — the expected `[label, lines]` shape is never
checked.  A stored payload `[["a","b","c"]]` is valid JSON but not a
valid pack, yet `pack_decode_from` returns it without error, refuting
the claimed "fails ... if and only if ... not valid structured data of
the expected shape". -/
theorem pack_decode_no_shape_validation_counterexample :
    pack_decode_from
        (json_encode (Json.arr [Json.arr [Json.str "a", Json.str "b", Json.str "c"]]))
      = .ok (Json.arr [Json.arr [Json.str "a", Json.str "b", Json.str "c"]]) ∧
      packOfJson (Json.arr [Json.arr [Json.str "a", Json.str "b", Json.str "c"]])
        = none :=
  ⟨json_decode_encode _, rfl⟩

/-- C4 amended: decoding an EncodedPack fails (and then produces no pack
value at all) if and only if hex decoding, decompression, text decoding
or JSON parsing fails; no shape validation is performed — any JSON value
round-trips through encode/decode unchanged, whether or not it has the
`[label, lines]` pack shape. -/
theorem pack_decode_failure_modes :
    (∀ s : String,
      (∃ e, pack_decode_from s = .error e) ↔
        bytesFromHex s.toList = none ∨
          (∃ bs, bytesFromHex s.toList = some bs ∧
            (decompress bs = none ∨
              (∃ ds, decompress bs = some ds ∧
                (utf8Decode ds = none ∨
                  (∃ cs, utf8Decode ds = some cs ∧ loads ⟨cs⟩ = none)))))) ∧
    (∀ j : Json, pack_decode_from (json_encode j) = .ok j) := by
  constructor
  · intro s
    rw [pack_decode_from]
    cases h1 : bytesFromHex s.toList with
    | none => simp
    | some bs =>
      cases h2 : decompress bs with
      | none => simp [h2]
      | some ds =>
        cases h3 : utf8Decode ds with
        | none => simp [h2, h3]
        | some cs =>
          cases h4 : loads ⟨cs⟩ with
          | none => simp [h2, h3, h4]
          | some j => simp [h2, h3, h4]
  · exact json_decode_encode

/-- C2 counterexample: for a Pack constructed with the drift flag set
(stored encoding differs from fresh), the staleness notification is
emitted *at construction time* (once), and an accessor use emits none —
refuting "at the time of the first accessor use ... (not at construction
time)". -/
theorem warning_at_construction_counterexample :
    (pack_init (encode_pack [("x", [])]) true
        (some { module := "m", name := "hoho", qualname := "bibi.hoho",
                doc := none })).map
        (fun p => (p.2.length, (origin_pack_sourcepack p.1).2.length))
      = .ok (1, 0) := rfl

/-- C2 amended: whenever construction succeeds, the staleness
notification is emitted exactly once per instance when the drift flag is
set (and never otherwise), at construction time — by the `_try_warning()`
call at the end of `__init__` — and the accessors
(`origin_pack_sourcepack`, `__call__`) never emit it. -/
theorem warning_emitted_once_at_construction (origin : String) (wu : Bool)
    (func : Option FuncMeta) :
    (pack_init origin wu func).map
        (fun p => (p.2.length, (origin_pack_sourcepack p.1).2.length,
          (call_blocks p.1).2.length))
      = (pack_init origin wu func).map
          (fun _ => ((if wu then 1 else 0), 0, 0)) := by
  cases h : pack_init origin wu func with
  | error e => rfl
  | ok p =>
    obtain ⟨st0, em⟩ := p
    obtain ⟨sp, dict, h1, h2, htw⟩ := pack_init_ok_shape origin wu func st0 em h
    have hlen : em.length = if wu then 1 else 0 := try_warning_ok_len _ _ _ htw
    simp [Except.map, origin_pack_sourcepack, call_blocks, hlen]

/-- C10: constructing a Pack with the drift-warning flag set but no
wrapped function supplied (`func = None`) fails with `AttributeError`
while building the warning message: the message formats
`self.__qualname__`, which is only set on the instance when a function
is supplied (the `setattr` loop of source lines 200-203), and CPython
keeps `__qualname__` out of the class `__dict__` (it lives on the
metaclass `type`, invisible to instance lookup).  Whenever decoding and
index building succeed, construction therefore aborts: no notification
is emitted and no Pack is returned. -/
theorem pack_init_no_func_attribute_error (origin : String) (sp : Json)
    (dict : List (Json × Json))
    (h1 : pack_decode_from origin = .ok sp)
    (h2 : (json_iter sp).mapM dict_index_entry = .ok dict) :
    pack_init origin true none = .error .attributeError := by
  simp only [pack_init, h1, h2]
  rfl

/-- C10 witness: the claim instantiated at the encoding of the one-block
pack `[["x", []]]`. -/
theorem pack_init_no_func_attribute_error_witness :
    pack_init (encode_pack [("x", [])]) true none = .error .attributeError :=
  pack_init_no_func_attribute_error (encode_pack [("x", [])])
    (jsonOfPack [("x", [])]) [(Json.str "x", Json.arr [])] (by rfl) (by rfl)

end PseudocodePack
